import Mathlib

/-!
Verification development for the NeMo repository fragment consisting of
`scripts/export_jasper_to_onnx.py`, `nemo/collections/cv/modules/losses/nll_loss.py`
and `nemo/collections/cv/modules/trainables/lenet5.py`.

The Python sources are shallowly embedded below:
* Python `str.replace` (replace all non-overlapping occurrences, scanning left
  to right) is `pyReplace` on `List Char`;
* the pre-v0.9 checkpoint key remapping of `main` is `remapKey` / `remapCkpt`;
* the control flow of `main` (config parsing, module construction, decoder-type
  validation, checkpoint loading, directory creation, ONNX export) is the
  trace-producing function `mainRun`;
* `LeNet5` is embedded as a real-valued network over `Fin`-indexed tensors;
* `NLLLoss._loss_function` and `torch.nn.NLLLoss` are `lossFunction` and
  `nllLossCrit`.
-/

/-! ## Definitions -/

/-- Substring test: `hasSub pat s` is true iff `pat` occurs contiguously in `s`
(Python's `pat in s`). -/
def hasSub (pat : List Char) : List Char → Bool
  | [] => decide (pat = [])
  | c :: s => decide (pat <+: (c :: s)) || hasSub pat s

/-- Fuel-indexed worker for `pyReplace`; the fuel is always instantiated with
the length of the string, which suffices. -/
def pyReplaceFuel (pat rep : List Char) : Nat → List Char → List Char
  | 0, s => s
  | _ + 1, [] => []
  | n + 1, c :: s =>
    if pat <+: (c :: s) then rep ++ pyReplaceFuel pat rep n (s.drop (pat.length - 1))
    else c :: pyReplaceFuel pat rep n s

/-- Python `s.replace(pat, rep)` for a non-empty pattern: replace every
non-overlapping occurrence of `pat` by `rep`, scanning left to right. -/
def pyReplace (pat rep s : List Char) : List Char :=
  pyReplaceFuel pat rep s.length s

/-- The pattern `.conv.` -/
def convPat : List Char := ".conv.".data

/-- The replacement `.mconv.` -/
def mconvPat : List Char := ".mconv.".data

/-- The pattern `.weight` -/
def weightPat : List Char := ".weight".data

/-- The replacement `.conv.weight` -/
def convWeightPat : List Char := ".conv.weight".data

/-- The string `.mconv.weight` (intermediate form of a remapped 3D conv weight). -/
def mconvWeightPat : List Char := ".mconv.weight".data

/-- The string `.mconv.conv.weight` (expected final form of a remapped 3D conv
weight key). -/
def mconvConvWeightPat : List Char := ".mconv.conv.weight".data

/-- The string `.conv.conv.`: two overlapping occurrences of `.conv.`. -/
def convConvPat : List Char := ".conv.conv.".data

/-- A checkpoint tensor: a shape plus an opaque payload identifier standing for
the numeric contents.  The remapping only ever inspects `shape.length`
(`len(v.shape)`). -/
structure Tensor where
  shape : List Nat
  payload : Int
deriving DecidableEq, Repr, Inhabited

/-- Key renaming applied to one checkpoint entry `(k, v)` where `rank`
is `len(v.shape)`. -/
def remapKey (k : List Char) (rank : Nat) : List Char :=
  let k1 := pyReplace convPat mconvPat k
  if rank = 3 then pyReplace weightPat convWeightPat k1 else k1

/-- Python dict assignment `d[k] = v` on an insertion-ordered association
list: update in place if the key is present, else append. -/
def dictInsert : List (List Char × Tensor) → List Char → Tensor → List (List Char × Tensor)
  | [], k, v => [(k, v)]
  | (k', v') :: d, k, v =>
    if k' = k then (k', v) :: d else (k', v') :: dictInsert d k v

/-- Python dict lookup `d[k]` (first matching key). -/
def dictLookup : List (List Char × Tensor) → List Char → Option Tensor
  | [], _ => none
  | (k', v') :: d, k => if k' = k then some v' else dictLookup d k

/-- The loop `for k, v in ckpt.items(): new_ckpt[new_k] = v` building the
remapped checkpoint dict. -/
def remapCkpt (ckpt : List (List Char × Tensor)) : List (List Char × Tensor) :=
  ckpt.foldl (fun acc e => dictInsert acc (remapKey e.1 e.2.shape.length) e.2) []

/-- `os.path.split` (posixpath): split at the last slash; the head keeps no
trailing slashes unless it consists only of slashes. -/
def osPathSplit (p : String) : String × String :=
  let cs := p.data
  let tailPart := (cs.reverse.takeWhile (fun c => c ≠ '/')).reverse
  let headPart := cs.take (cs.length - tailPart.length)
  let headStripped :=
    if headPart ≠ [] ∧ headPart.any (fun c => c ≠ '/') then
      (headPart.reverse.dropWhile (fun c => c = '/')).reverse
    else headPart
  (String.mk headStripped, String.mk tailPart)

/-- The fields of the parsed YAML config that `main` reads.  `labels` is the
optional top-level `labels` list; the others live under
`init_params.decoder_params.init_params`. -/
structure Config where
  decoderFeatIn : Nat
  decoderNumClasses : Nat
  decoderVocabulary : List String
  labels : Option (List String)
deriving DecidableEq

/-- The arguments of `main` (paths, flags and the keyword defaults
`batch_size=1`, `time_steps=256`, `decoder_type=ctc`). -/
structure Args where
  configFile : String
  nnEncoder : String
  nnDecoder : String
  onnxEncoder : String
  onnxDecoder : String
  preV09Model : Bool
  batchSize : Nat
  timeSteps : Nat
  decoderType : String
deriving DecidableEq

/-- The reasons `main` itself raises `ValueError`. -/
inductive ErrKind where
  | missingLabels
  | badDecoderType
deriving DecidableEq

/-- Externally observable steps of a run of `main`, in program order. -/
inductive Event where
  | readConfig
  | constructEncoder
  | constructDecoder (kind : String) (numClasses : Nat)
  | readCheckpoint (path : String)
  | loadRemappedState (sd : List (List Char × Tensor))
  | makedirs (dir : String)
  | exportModule (path : String) (dummyInput : Tensor)
deriving DecidableEq

/-- One `base_export_dir, export_fn = os.path.split(path)` step followed by
`if base_export_dir and not os.path.exists(base_export_dir): os.makedirs(...)`:
returns the updated set of existing directories and the emitted events. -/
def dirStep (fs : List String) (path : String) : List String × List Event :=
  let d := (osPathSplit path).1
  if d ≠ "" ∧ d ∉ fs then (d :: fs, [Event.makedirs d]) else (fs, [])

/-- One run of `main`: returns the event trace, the final set of existing
directories, and the `ValueError` raised, if any.  `fs0` is the set of paths
for which `os.path.exists` is true at entry; `encCkpt` is the content of the
encoder checkpoint file (used by the pre-v0.9 remapping branch). -/
def mainRun (cfg : Config) (a : Args) (fs0 : List String)
    (encCkpt : List (List Char × Tensor)) :
    List Event × List String × Option ErrKind :=
  let numEncoderInputFeatures : Nat := 64
  let pre := [Event.readConfig, Event.constructEncoder]
  let decoderStep : Except ErrKind (List Event) :=
    if a.decoderType = "ctc" then
      Except.ok [Event.constructDecoder "ctc" cfg.decoderNumClasses]
    else if a.decoderType = "classification" then
      match cfg.labels with
      | some ls => Except.ok [Event.constructDecoder "classification" ls.length]
      | none => Except.error ErrKind.missingLabels
    else Except.error ErrKind.badDecoderType
  match decoderStep with
  | Except.error e => (pre, fs0, some e)
  | Except.ok dEv =>
    let loadEv :=
      (if a.preV09Model then
        [Event.readCheckpoint a.nnEncoder, Event.loadRemappedState (remapCkpt encCkpt)]
      else
        [Event.readCheckpoint a.nnEncoder]) ++ [Event.readCheckpoint a.nnDecoder]
    let step1 := dirStep fs0 a.onnxEncoder
    let step2 := dirStep step1.1 a.onnxDecoder
    let exEv :=
      [Event.exportModule a.onnxEncoder ⟨[a.batchSize, numEncoderInputFeatures, a.timeSteps], 0⟩,
       Event.exportModule a.onnxDecoder ⟨[a.batchSize, cfg.decoderFeatIn, a.timeSteps / 2], 0⟩]
    (pre ++ dEv ++ loadEv ++ step1.2 ++ step2.2 ++ exEv, step2.1, none)

/-- `torch.nn.Conv2d(Cin, Cout, kernel_size=(5, 5))` (stride 1, no padding)
applied to one image. -/
noncomputable def conv2d {Cin Cout H W : Nat}
    (w : Fin Cout → Fin Cin → Fin 5 → Fin 5 → ℝ) (b : Fin Cout → ℝ)
    (x : Fin Cin → Fin H → Fin W → ℝ) :
    Fin Cout → Fin (H - 4) → Fin (W - 4) → ℝ :=
  fun o i j =>
    b o + ∑ c, ∑ p : Fin 5, ∑ q : Fin 5,
      w o c p q * x c ⟨i.1 + p.1, by omega⟩ ⟨j.1 + q.1, by omega⟩

/-- `torch.nn.ReLU()` on a rank-3 tensor. -/
def relu3 {C H W : Nat} (x : Fin C → Fin H → Fin W → ℝ) : Fin C → Fin H → Fin W → ℝ :=
  fun c i j => max (x c i j) 0

/-- `torch.nn.ReLU()` on a rank-1 tensor. -/
def relu1 {D : Nat} (x : Fin D → ℝ) : Fin D → ℝ :=
  fun i => max (x i) 0

/-- `torch.nn.MaxPool2d(kernel_size=(2, 2), stride=2)` applied to one image. -/
def maxPool2 {C H W : Nat} (x : Fin C → Fin H → Fin W → ℝ) :
    Fin C → Fin (H / 2) → Fin (W / 2) → ℝ :=
  fun c i j =>
    max (max (x c ⟨2 * i.1, by omega⟩ ⟨2 * j.1, by omega⟩)
             (x c ⟨2 * i.1, by omega⟩ ⟨2 * j.1 + 1, by omega⟩))
        (max (x c ⟨2 * i.1 + 1, by omega⟩ ⟨2 * j.1, by omega⟩)
             (x c ⟨2 * i.1 + 1, by omega⟩ ⟨2 * j.1 + 1, by omega⟩))

/-- `torch.nn.Flatten()` on one sample (channel-major, as in torch). -/
def flatten {C H W : Nat} (x : Fin C → Fin H → Fin W → ℝ) : Fin (C * (H * W)) → ℝ :=
  fun i =>
    have hHW : 0 < H * W := by
      rcases Nat.eq_zero_or_pos (H * W) with h | h
      · exact absurd (lt_of_lt_of_eq i.2 (by rw [h, Nat.mul_zero])) (Nat.not_lt_zero _)
      · exact h
    have hW : 0 < W := by
      rcases Nat.eq_zero_or_pos W with h | h
      · exact absurd (lt_of_lt_of_eq hHW (by rw [h, Nat.mul_zero])) (Nat.not_lt_zero _)
      · exact h
    x ⟨i.1 / (H * W), (Nat.div_lt_iff_lt_mul hHW).mpr i.2⟩
      ⟨i.1 % (H * W) / W, (Nat.div_lt_iff_lt_mul hW).mpr (Nat.mod_lt _ hHW)⟩
      ⟨i.1 % W, Nat.mod_lt _ hW⟩

/-- `torch.nn.Linear(I, O)` on one sample. -/
noncomputable def linear {I O : Nat} (w : Fin O → Fin I → ℝ) (b : Fin O → ℝ)
    (x : Fin I → ℝ) : Fin O → ℝ :=
  fun o => b o + ∑ i, w o i * x i

/-- `torch.nn.LogSoftmax(dim=1)` on one row. -/
noncomputable def logSoftmax {D : Nat} (x : Fin D → ℝ) : Fin D → ℝ :=
  fun j => x j - Real.log (∑ k, Real.exp (x k))

/-- The trainable parameters of the LeNet-5 pipeline (conv and linear layer
weights and biases, shapes as constructed in `LeNet5.__init__`). -/
structure LeNet5 where
  conv1w : Fin 6 → Fin 1 → Fin 5 → Fin 5 → ℝ
  conv1b : Fin 6 → ℝ
  conv2w : Fin 16 → Fin 6 → Fin 5 → Fin 5 → ℝ
  conv2b : Fin 16 → ℝ
  conv3w : Fin 120 → Fin 16 → Fin 5 → Fin 5 → ℝ
  conv3b : Fin 120 → ℝ
  fc1w : Fin 84 → Fin 120 → ℝ
  fc1b : Fin 84 → ℝ
  fc2w : Fin 10 → Fin 84 → ℝ
  fc2b : Fin 10 → ℝ

/-- `LeNet5.forward`: the sequential pipeline
conv(1→6,5×5) → ReLU → maxpool2 → conv(6→16,5×5) → ReLU → maxpool2 →
conv(16→120,5×5) → ReLU → flatten → linear(120→84) → ReLU → linear(84→10) →
logSoftmax, applied per batch element. -/
noncomputable def LeNet5.forward {N : Nat} (m : LeNet5)
    (images : Fin N → Fin 1 → Fin 32 → Fin 32 → ℝ) : Fin N → Fin 10 → ℝ :=
  fun n =>
    let c1 := relu3 (conv2d m.conv1w m.conv1b (images n))
    let p1 := maxPool2 c1
    let c2 := relu3 (conv2d m.conv2w m.conv2b p1)
    let p2 := maxPool2 c2
    let c3 := relu3 (conv2d m.conv3w m.conv3b p2)
    let f := flatten c3
    let h1 := relu1 (linear m.fc1w m.fc1b f)
    let out := linear m.fc2w m.fc2b h1
    logSoftmax out

/-- Collect `x[i, t[i]]` for every batch element; `none` if the batch sizes
differ or a target index is out of range. -/
def gatherTargets : List (List ℝ) → List Nat → Option (List ℝ)
  | [], [] => some []
  | p :: ps, t :: ts =>
    match p.get? t, gatherTargets ps ts with
    | some x, some xs => some (x :: xs)
    | _, _ => none
  | _, _ => none

/-- `torch.nn.NLLLoss()` applied to `(predictions, targets)`. -/
noncomputable def nllLossCrit (preds : List (List ℝ)) (targets : List Nat) : Option ℝ :=
  match gatherTargets preds targets with
  | some [] => none
  | some xs => some (-xs.sum / xs.length)
  | none => none

/-- A value passed through the Neural Module port system: either a predictions
tensor or a targets tensor. -/
inductive TValue where
  | pred (p : List (List ℝ))
  | targ (t : List Nat)

/-- Calling `self._criterion(*args)`: `torch.nn.NLLLoss` accepts a predictions
tensor followed by a targets tensor and rejects anything else. -/
noncomputable def criterionApply : List TValue → Option ℝ
  | [TValue.pred p, TValue.targ t] => nllLossCrit p t
  | _ => none

/-- `NLLLoss._loss_function(self, **kwargs)`: the source is
`return self._criterion(*(kwargs.values()))`, i.e. the keyword arguments are
passed positionally in insertion order, their names ignored. -/
noncomputable def lossFunction (kwargs : List (String × TValue)) : Option ℝ :=
  criterionApply (kwargs.map Prod.snd)

/-! ## Theorems -/

theorem pyReplaceFuel_nil (pat rep : List Char) (n : Nat) :
    pyReplaceFuel pat rep n [] = [] := by
  cases n <;> rfl

theorem pyReplaceFuel_fuel_eq (pat rep : List Char) :
    ∀ n m s, s.length ≤ n → s.length ≤ m →
      pyReplaceFuel pat rep n s = pyReplaceFuel pat rep m s := by
  intro n
  induction n with
  | zero =>
    intro m s hn _
    have : s = [] := List.length_eq_zero.mp (Nat.le_zero.mp hn)
    subst this
    simp [pyReplaceFuel_nil]
  | succ n ih =>
    intro m s hn hm
    match s, m with
    | [], _ => simp [pyReplaceFuel_nil]
    | c :: s, 0 => simp at hm
    | c :: s, m + 1 =>
      simp only [pyReplaceFuel]
      have hs : s.length ≤ n := by simpa using hn
      have hs' : s.length ≤ m := by simpa using hm
      by_cases hp : pat <+: (c :: s)
      · rw [if_pos hp, if_pos hp,
          ih _ (s.drop (pat.length - 1)) (le_trans (by simp) hs) (le_trans (by simp) hs')]
      · rw [if_neg hp, if_neg hp, ih _ s hs hs']

theorem pyReplace_nil (pat rep : List Char) : pyReplace pat rep [] = [] := rfl

theorem pyReplace_cons (pat rep : List Char) (c : Char) (s : List Char) :
    pyReplace pat rep (c :: s) =
      if pat <+: (c :: s) then rep ++ pyReplace pat rep (s.drop (pat.length - 1))
      else c :: pyReplace pat rep s := by
  show pyReplaceFuel pat rep (s.length + 1) (c :: s) = _
  simp only [pyReplaceFuel]
  by_cases hp : pat <+: (c :: s)
  · rw [if_pos hp, if_pos hp,
      pyReplaceFuel_fuel_eq pat rep s.length (s.drop (pat.length - 1)).length
        (s.drop (pat.length - 1)) (by simp) le_rfl]
    rfl
  · rw [if_neg hp, if_neg hp]
    rfl

theorem hasSub_of_pref {pat s : List Char} (h : pat <+: s) : hasSub pat s = true := by
  cases s with
  | nil => simp [hasSub, List.prefix_nil.mp h]
  | cons c s => simp [hasSub, h]

theorem hasSub_cons_of {pat s : List Char} (c : Char) (h : hasSub pat s = true) :
    hasSub pat (c :: s) = true := by
  simp [hasSub, h]

theorem hasSub_append_right {pat s : List Char} (a : List Char) (h : hasSub pat s = true) :
    hasSub pat (a ++ s) = true := by
  induction a with
  | nil => simpa using h
  | cons c a ih => simpa using hasSub_cons_of c ih

theorem hasSub_cons_elim {pat : List Char} {c : Char} {s : List Char}
    (h : hasSub pat (c :: s) = true) : pat <+: (c :: s) ∨ hasSub pat s = true := by
  simpa [hasSub] using h

theorem hasSub_nil_elim {pat : List Char} (h : hasSub pat [] = true) : pat = [] := by
  simpa [hasSub] using h

/-- Occurrences of a pattern starting with `p0` cannot begin inside a block `a`
that does not contain `p0`, so the substring test skips over the block. -/
theorem hasSub_skip {p0 : Char} {ps a s : List Char} (ha : p0 ∉ a) :
    hasSub (p0 :: ps) (a ++ s) = hasSub (p0 :: ps) s := by
  induction a with
  | nil => rfl
  | cons c a ih =>
    have hc : c ≠ p0 := fun h => ha (h ▸ List.mem_cons_self c a)
    have hnp : ¬ (p0 :: ps <+: (c :: (a ++ s))) := by
      rw [List.cons_prefix_cons]
      rintro ⟨h, -⟩
      exact hc h.symm
    have ha' : p0 ∉ a := fun h => ha (List.mem_cons_of_mem c h)
    simp [hasSub, hnp, ih ha']

/-- `pyReplace` leaves a block untouched when the block does not contain the
head of the pattern. -/
theorem pyReplace_skip {p0 : Char} {ps rep : List Char} (a : List Char) {s : List Char}
    (ha : p0 ∉ a) :
    pyReplace (p0 :: ps) rep (a ++ s) = a ++ pyReplace (p0 :: ps) rep s := by
  induction a with
  | nil => rfl
  | cons c a ih =>
    have hc : c ≠ p0 := fun h => ha (h ▸ List.mem_cons_self c a)
    have hnp : ¬ (p0 :: ps <+: (c :: (a ++ s))) := by
      rw [List.cons_prefix_cons]
      rintro ⟨h, -⟩
      exact hc h.symm
    have ha' : p0 ∉ a := fun h => ha (List.mem_cons_of_mem c h)
    rw [List.cons_append, pyReplace_cons, if_neg hnp, ih ha', List.cons_append]

/-- If the pattern occurs in the string, then the replacement occurs in the
result of `pyReplace`. -/
theorem hasSub_rep_pyReplace {pat : List Char} (hpat : pat ≠ []) (rep : List Char) :
    ∀ s, hasSub pat s = true → hasSub rep (pyReplace pat rep s) = true := by
  intro s
  induction s with
  | nil => intro h; exact absurd (hasSub_nil_elim h) hpat
  | cons c s ih =>
    intro h
    rw [pyReplace_cons]
    by_cases hp : pat <+: (c :: s)
    · rw [if_pos hp]
      exact hasSub_of_pref (List.prefix_append rep _)
    · rw [if_neg hp]
      rcases hasSub_cons_elim h with h' | h'
      · exact absurd h' hp
      · exact hasSub_cons_of c (ih h')

/-- If the pattern does not occur in the string, `pyReplace` is the identity. -/
theorem pyReplace_of_not_hasSub {pat rep : List Char} :
    ∀ {s}, hasSub pat s = false → pyReplace pat rep s = s := by
  intro s
  induction s with
  | nil => intro _; rfl
  | cons c s ih =>
    intro h
    have h' : ¬ (pat <+: (c :: s)) := fun hp => by
      rw [hasSub_of_pref hp] at h; exact Bool.true_eq_false.mp h
    have hs : hasSub pat s = false := by
      cases hh : hasSub pat s with
      | false => rfl
      | true => rw [hasSub_cons_of c hh] at h; exact absurd h (by simp)
    rw [pyReplace_cons, if_neg h', ih hs]

theorem convPat_eq : convPat = '.' :: 'c' :: 'o' :: 'n' :: 'v' :: '.' :: [] := rfl

theorem mconvPat_eq : mconvPat = '.' :: 'm' :: 'c' :: 'o' :: 'n' :: 'v' :: '.' :: [] := rfl

theorem weightPat_eq : weightPat = '.' :: 'w' :: 'e' :: 'i' :: 'g' :: 'h' :: 't' :: [] := rfl

theorem convWeightPat_eq :
    convWeightPat = '.' :: 'c' :: 'o' :: 'n' :: 'v' :: '.' :: 'w' :: 'e' :: 'i' :: 'g' :: 'h' :: 't' :: [] := rfl

theorem mconvWeightPat_eq :
    mconvWeightPat = '.' :: 'm' :: 'c' :: 'o' :: 'n' :: 'v' :: '.' :: 'w' :: 'e' :: 'i' :: 'g' :: 'h' :: 't' :: [] := rfl

theorem prefix_dot_of_replace (t : List Char)
    (h : ['.'] <+: pyReplace convPat mconvPat t) : ['.'] <+: t := by
  cases t with
  | nil => rw [pyReplace_nil] at h; exact absurd (List.prefix_nil.mp h) (by decide)
  | cons d t =>
    by_cases hp : convPat <+: (d :: t)
    · obtain ⟨u, hu⟩ := hp
      rw [convPat_eq] at hu
      simp only [List.cons_append, List.nil_append] at hu
      injection hu with h1 _
      rw [← h1, List.cons_prefix_cons]
      exact ⟨rfl, List.nil_prefix⟩
    · rw [pyReplace_cons, if_neg hp, List.cons_prefix_cons] at h
      rw [List.cons_prefix_cons]
      exact ⟨h.1, List.nil_prefix⟩

theorem prefix_vdot_of_replace (t : List Char)
    (h : ['v', '.'] <+: pyReplace convPat mconvPat t) : ['v', '.'] <+: t := by
  cases t with
  | nil => rw [pyReplace_nil] at h; exact absurd (List.prefix_nil.mp h) (by decide)
  | cons d t =>
    by_cases hp : convPat <+: (d :: t)
    · obtain ⟨u, hu⟩ := hp
      rw [pyReplace_cons, if_pos ⟨u, hu⟩, mconvPat_eq] at h
      simp only [List.cons_append, List.cons_prefix_cons] at h
      exact absurd h.1 (by decide)
    · rw [pyReplace_cons, if_neg hp, List.cons_prefix_cons] at h
      rw [List.cons_prefix_cons]
      exact ⟨h.1, prefix_dot_of_replace t h.2⟩

theorem prefix_nvdot_of_replace (t : List Char)
    (h : ['n', 'v', '.'] <+: pyReplace convPat mconvPat t) : ['n', 'v', '.'] <+: t := by
  cases t with
  | nil => rw [pyReplace_nil] at h; exact absurd (List.prefix_nil.mp h) (by decide)
  | cons d t =>
    by_cases hp : convPat <+: (d :: t)
    · obtain ⟨u, hu⟩ := hp
      rw [pyReplace_cons, if_pos ⟨u, hu⟩, mconvPat_eq] at h
      simp only [List.cons_append, List.cons_prefix_cons] at h
      exact absurd h.1 (by decide)
    · rw [pyReplace_cons, if_neg hp, List.cons_prefix_cons] at h
      rw [List.cons_prefix_cons]
      exact ⟨h.1, prefix_vdot_of_replace t h.2⟩

theorem prefix_onvdot_of_replace (t : List Char)
    (h : ['o', 'n', 'v', '.'] <+: pyReplace convPat mconvPat t) : ['o', 'n', 'v', '.'] <+: t := by
  cases t with
  | nil => rw [pyReplace_nil] at h; exact absurd (List.prefix_nil.mp h) (by decide)
  | cons d t =>
    by_cases hp : convPat <+: (d :: t)
    · obtain ⟨u, hu⟩ := hp
      rw [pyReplace_cons, if_pos ⟨u, hu⟩, mconvPat_eq] at h
      simp only [List.cons_append, List.cons_prefix_cons] at h
      exact absurd h.1 (by decide)
    · rw [pyReplace_cons, if_neg hp, List.cons_prefix_cons] at h
      rw [List.cons_prefix_cons]
      exact ⟨h.1, prefix_nvdot_of_replace t h.2⟩

theorem prefix_convdot_of_replace (t : List Char)
    (h : ['c', 'o', 'n', 'v', '.'] <+: pyReplace convPat mconvPat t) :
    ['c', 'o', 'n', 'v', '.'] <+: t := by
  cases t with
  | nil => rw [pyReplace_nil] at h; exact absurd (List.prefix_nil.mp h) (by decide)
  | cons d t =>
    by_cases hp : convPat <+: (d :: t)
    · obtain ⟨u, hu⟩ := hp
      rw [pyReplace_cons, if_pos ⟨u, hu⟩, mconvPat_eq] at h
      simp only [List.cons_append, List.cons_prefix_cons] at h
      exact absurd h.1 (by decide)
    · rw [pyReplace_cons, if_neg hp, List.cons_prefix_cons] at h
      rw [List.cons_prefix_cons]
      exact ⟨h.1, prefix_onvdot_of_replace t h.2⟩

theorem convConvPat_eq :
    convConvPat = '.' :: 'c' :: 'o' :: 'n' :: 'v' :: '.' :: 'c' :: 'o' :: 'n' :: 'v' :: '.' :: [] := rfl

/-- Unfolding the replacement over a leading `.conv.` occurrence. -/
theorem pyReplace_conv_head (t : List Char) :
    pyReplace convPat mconvPat (convPat ++ t) = mconvPat ++ pyReplace convPat mconvPat t := by
  have hpre : convPat <+: (convPat ++ t) := List.prefix_append _ _
  rw [convPat_eq] at hpre ⊢
  simp only [List.cons_append, List.nil_append] at hpre ⊢
  rw [pyReplace_cons, if_pos hpre]
  congr 1

/-- Unfolding the replacement over a leading `.weight` occurrence. -/
theorem pyReplace_weight_head (u : List Char) :
    pyReplace weightPat convWeightPat (weightPat ++ u) =
      convWeightPat ++ pyReplace weightPat convWeightPat u := by
  have hpre : weightPat <+: (weightPat ++ u) := List.prefix_append _ _
  rw [weightPat_eq] at hpre ⊢
  simp only [List.cons_append, List.nil_append] at hpre ⊢
  rw [pyReplace_cons, if_pos hpre]
  congr 1

/-- Case analysis for a dot-headed pattern occurring in `.conv. ++ t`: the
occurrence starts at the front, at the final dot of `.conv.`, or inside `t`. -/
theorem hasSub_conv_append_elim {ps t : List Char}
    (h : hasSub ('.' :: ps) (convPat ++ t) = true) :
    ('.' :: ps) <+: (convPat ++ t) ∨ ('.' :: ps) <+: ('.' :: t) ∨ hasSub ('.' :: ps) t = true := by
  have hshape : convPat ++ t = '.' :: (['c', 'o', 'n', 'v'] ++ ('.' :: t)) := by
    rw [convPat_eq]; simp
  rw [hshape] at h
  rcases hasSub_cons_elim h with h1 | h1
  · left; rw [hshape]; exact h1
  · rw [hasSub_skip (by decide)] at h1
    rcases hasSub_cons_elim h1 with h2 | h2
    · right; left; exact h2
    · right; right; exact h2

/-- Case analysis for a dot-headed pattern occurring in `.mconv. ++ r`. -/
theorem hasSub_mconv_append_elim {ps r : List Char}
    (h : hasSub ('.' :: ps) (mconvPat ++ r) = true) :
    ('.' :: ps) <+: (mconvPat ++ r) ∨ ('.' :: ps) <+: ('.' :: r) ∨ hasSub ('.' :: ps) r = true := by
  have hshape : mconvPat ++ r = '.' :: (['m', 'c', 'o', 'n', 'v'] ++ ('.' :: r)) := by
    rw [mconvPat_eq]; simp
  rw [hshape] at h
  rcases hasSub_cons_elim h with h1 | h1
  · left; rw [hshape]; exact h1
  · rw [hasSub_skip (by decide)] at h1
    rcases hasSub_cons_elim h1 with h2 | h2
    · right; left; exact h2
    · right; right; exact h2

/-- Case analysis for a dot-headed pattern occurring in `.weight ++ u`. -/
theorem hasSub_weight_append_elim {ps u : List Char}
    (h : hasSub ('.' :: ps) (weightPat ++ u) = true) :
    ('.' :: ps) <+: (weightPat ++ u) ∨ hasSub ('.' :: ps) u = true := by
  have hshape : weightPat ++ u = '.' :: (['w', 'e', 'i', 'g', 'h', 't'] ++ u) := by
    rw [weightPat_eq]; simp
  rw [hshape] at h
  rcases hasSub_cons_elim h with h1 | h1
  · left; rw [hshape]; exact h1
  · rw [hasSub_skip (by decide)] at h1
    right; exact h1

/-- If a key contains no overlapping pair `.conv.conv.`, the greedy left-to-right
`.conv.` → `.mconv.` replacement eliminates every `.conv.` occurrence. -/
theorem hasSub_conv_replace_eq_false :
    ∀ n s, s.length ≤ n → hasSub convConvPat s = false →
      hasSub convPat (pyReplace convPat mconvPat s) = false := by
  intro n
  induction n with
  | zero =>
    intro s hs _
    have h0 : s = [] := List.length_eq_zero.mp (Nat.le_zero.mp hs)
    subst h0
    decide
  | succ n ih =>
    intro s hs hcc
    cases s with
    | nil => decide
    | cons c s =>
      by_cases hp : convPat <+: (c :: s)
      · obtain ⟨t, ht⟩ := hp
        rw [← ht] at hcc hs ⊢
        rw [pyReplace_conv_head]
        have hlen : t.length ≤ n := by
          rw [convPat_eq] at hs; simp at hs; omega
        have hcct : hasSub convConvPat t = false := by
          cases h' : hasSub convConvPat t with
          | false => rfl
          | true => rw [hasSub_append_right convPat h'] at hcc; exact absurd hcc (by simp)
        have iht := ih t hlen hcct
        cases hgoal : hasSub convPat (mconvPat ++ pyReplace convPat mconvPat t) with
        | false => rfl
        | true =>
          exfalso
          rw [convPat_eq] at hgoal
          rcases hasSub_mconv_append_elim hgoal with h1 | h1 | h1
          · rw [mconvPat_eq] at h1
            simp only [List.cons_append, List.cons_prefix_cons] at h1
            exact absurd h1.2.1 (by decide)
          · rw [List.cons_prefix_cons] at h1
            obtain ⟨u, hu⟩ := prefix_convdot_of_replace t h1.2
            have hccpre : convConvPat <+: (convPat ++ t) :=
              ⟨u, by rw [← hu, convConvPat_eq, convPat_eq]; simp⟩
            rw [hasSub_of_pref hccpre] at hcc
            exact absurd hcc (by simp)
          · rw [← convPat_eq] at h1
            rw [h1] at iht
            exact absurd iht (by simp)
      · rw [pyReplace_cons, if_neg hp]
        have hccs : hasSub convConvPat s = false := by
          cases h' : hasSub convConvPat s with
          | false => rfl
          | true => rw [hasSub_cons_of c h'] at hcc; exact absurd hcc (by simp)
        have ihs := ih s (by simpa using hs) hccs
        cases hgoal : hasSub convPat (c :: pyReplace convPat mconvPat s) with
        | false => rfl
        | true =>
          exfalso
          rcases hasSub_cons_elim hgoal with h1 | h1
          · rw [convPat_eq, List.cons_prefix_cons] at h1
            have h2 := prefix_convdot_of_replace s h1.2
            apply hp
            rw [convPat_eq, List.cons_prefix_cons]
            exact ⟨h1.1, h2⟩
          · rw [h1] at ihs
            exact absurd ihs (by simp)

/-- If a key contains `.conv.weight` and no overlapping `.conv.conv.`, the
`.conv.` → `.mconv.` replacement produces a `.mconv.weight` occurrence. -/
theorem mconvWeight_after_conv_replace :
    ∀ n s, s.length ≤ n → hasSub convConvPat s = false → hasSub convWeightPat s = true →
      hasSub mconvWeightPat (pyReplace convPat mconvPat s) = true := by
  intro n
  induction n with
  | zero =>
    intro s hs _ hcw
    have h0 : s = [] := List.length_eq_zero.mp (Nat.le_zero.mp hs)
    subst h0
    exact absurd (hasSub_nil_elim hcw) (by decide)
  | succ n ih =>
    intro s hs hcc hcw
    cases s with
    | nil => exact absurd (hasSub_nil_elim hcw) (by decide)
    | cons c s =>
      by_cases hp : convPat <+: (c :: s)
      · obtain ⟨t, ht⟩ := hp
        rw [← ht] at hcc hcw hs ⊢
        have hlen : t.length ≤ n := by
          rw [convPat_eq] at hs; simp at hs; omega
        have hcct : hasSub convConvPat t = false := by
          cases h' : hasSub convConvPat t with
          | false => rfl
          | true => rw [hasSub_append_right convPat h'] at hcc; exact absurd hcc (by simp)
        rw [pyReplace_conv_head]
        by_cases hw : convWeightPat <+: (convPat ++ t)
        · obtain ⟨u, hu⟩ := hw
          rw [convWeightPat_eq, convPat_eq] at hu
          simp only [List.cons_append, List.nil_append] at hu
          simp only [List.cons.injEq, true_and] at hu
          rw [← hu]
          have hshape : ('w' :: 'e' :: 'i' :: 'g' :: 'h' :: 't' :: u) =
              ['w', 'e', 'i', 'g', 'h', 't'] ++ u := rfl
          rw [hshape, convPat_eq, pyReplace_skip _ (by decide), ← convPat_eq]
          apply hasSub_of_pref
          exact ⟨pyReplace convPat mconvPat u, by rw [mconvWeightPat_eq, mconvPat_eq]; simp⟩
        · rw [convWeightPat_eq] at hcw
          rcases hasSub_conv_append_elim hcw with h1 | h1 | h1
          · rw [← convWeightPat_eq] at h1
            exact absurd h1 hw
          · rw [List.cons_prefix_cons] at h1
            obtain ⟨u, hu⟩ := h1.2
            exfalso
            have hccpre : convConvPat <+: (convPat ++ t) :=
              ⟨'w' :: 'e' :: 'i' :: 'g' :: 'h' :: 't' :: u, by
                rw [← hu, convConvPat_eq, convPat_eq]; simp⟩
            rw [hasSub_of_pref hccpre] at hcc
            exact absurd hcc (by simp)
          · rw [← convWeightPat_eq] at h1
            exact hasSub_append_right mconvPat (ih t hlen hcct h1)
      · rw [pyReplace_cons, if_neg hp]
        have hccs : hasSub convConvPat s = false := by
          cases h' : hasSub convConvPat s with
          | false => rfl
          | true => rw [hasSub_cons_of c h'] at hcc; exact absurd hcc (by simp)
        rcases hasSub_cons_elim hcw with h1 | h1
        · exact absurd ((by decide : convPat <+: convWeightPat).trans h1) hp
        · exact hasSub_cons_of c (ih s (by simpa using hs) hccs h1)

theorem mconvConvWeightPat_eq :
    mconvConvWeightPat = '.' :: 'm' :: 'c' :: 'o' :: 'n' :: 'v' :: '.' :: 'c' :: 'o' :: 'n' :: 'v' ::
      '.' :: 'w' :: 'e' :: 'i' :: 'g' :: 'h' :: 't' :: [] := rfl

/-- A `.mconv.weight` occurrence survives the `.weight` → `.conv.weight`
replacement as `.mconv.conv.weight`. -/
theorem mconvConvWeight_after_weight_replace :
    ∀ n s, s.length ≤ n → hasSub mconvWeightPat s = true →
      hasSub mconvConvWeightPat (pyReplace weightPat convWeightPat s) = true := by
  intro n
  induction n with
  | zero =>
    intro s hs hmw
    have h0 : s = [] := List.length_eq_zero.mp (Nat.le_zero.mp hs)
    subst h0
    exact absurd (hasSub_nil_elim hmw) (by decide)
  | succ n ih =>
    intro s hs hmw
    cases s with
    | nil => exact absurd (hasSub_nil_elim hmw) (by decide)
    | cons c s =>
      by_cases hm : mconvWeightPat <+: (c :: s)
      · obtain ⟨u, hu⟩ := hm
        rw [← hu]
        have hshape : mconvWeightPat ++ u =
            '.' :: (['m', 'c', 'o', 'n', 'v'] ++ (weightPat ++ u)) := by
          rw [mconvWeightPat_eq, weightPat_eq]; simp
        have hnw : ¬ (weightPat <+: ('.' :: (['m', 'c', 'o', 'n', 'v'] ++ (weightPat ++ u)))) := by
          rw [weightPat_eq]
          simp [List.cons_prefix_cons]
        rw [hshape, pyReplace_cons, if_neg hnw, weightPat_eq]
        rw [pyReplace_skip ['m', 'c', 'o', 'n', 'v'] (by decide), ← weightPat_eq,
          pyReplace_weight_head]
        apply hasSub_of_pref
        exact ⟨pyReplace weightPat convWeightPat u, by
          rw [mconvConvWeightPat_eq, convWeightPat_eq]; simp⟩
      · by_cases hw : weightPat <+: (c :: s)
        · obtain ⟨u, hu⟩ := hw
          rw [← hu] at hm hmw hs ⊢
          have hlen : u.length ≤ n := by
            rw [weightPat_eq] at hs; simp at hs; omega
          rw [mconvWeightPat_eq] at hmw
          rcases hasSub_weight_append_elim hmw with h1 | h1
          · rw [← mconvWeightPat_eq] at h1
            exact absurd h1 hm
          · rw [← mconvWeightPat_eq] at h1
            rw [pyReplace_weight_head]
            exact hasSub_append_right convWeightPat (ih u hlen h1)
        · rw [pyReplace_cons, if_neg hw]
          rcases hasSub_cons_elim hmw with h1 | h1
          · exact absurd h1 hm
          · exact hasSub_cons_of c (ih s (by simpa using hs) h1)

theorem dictInsert_not_mem {d : List (List Char × Tensor)} {k : List Char} (v : Tensor)
    (hk : k ∉ d.map Prod.fst) : dictInsert d k v = d ++ [(k, v)] := by
  induction d with
  | nil => rfl
  | cons e d ih =>
    have h1 : e.1 ≠ k := by
      intro h
      exact hk (by simp [← h])
    have h2 : k ∉ d.map Prod.fst := fun h => hk (by simp [h])
    cases e with
    | mk k' v' =>
      simp only [dictInsert, if_neg h1]
      rw [ih h2]
      rfl

theorem remapCkpt_loop_eq (rn : List Char × Tensor → List Char) :
    ∀ (l acc : List (List Char × Tensor)),
      (acc.map Prod.fst ++ l.map rn).Nodup →
      l.foldl (fun a e => dictInsert a (rn e) e.2) acc = acc ++ l.map (fun e => (rn e, e.2)) := by
  intro l
  induction l with
  | nil => intro acc _; simp
  | cons e l ih =>
    intro acc hnd
    have hdisj : List.Disjoint (acc.map Prod.fst) (List.map rn (e :: l)) :=
      List.disjoint_of_nodup_append hnd
    have hmem : rn e ∉ acc.map Prod.fst := fun h => hdisj h (by simp)
    simp only [List.foldl_cons]
    rw [dictInsert_not_mem e.2 hmem]
    have hnd' : ((acc ++ [(rn e, e.2)]).map Prod.fst ++ l.map rn).Nodup := by
      have : (acc ++ [(rn e, e.2)]).map Prod.fst ++ l.map rn =
          acc.map Prod.fst ++ (rn e :: l.map rn) := by simp
      rw [this]
      simpa using hnd
    rw [ih (acc ++ [(rn e, e.2)]) hnd']
    simp

theorem dictLookup_map_eq (rn : List Char × Tensor → List Char) :
    ∀ (l : List (List Char × Tensor)), (l.map rn).Nodup →
      ∀ e ∈ l, dictLookup (l.map fun x => (rn x, x.2)) (rn e) = some e.2 := by
  intro l
  induction l with
  | nil => intro _ e he; exact absurd he (by simp)
  | cons e0 l ih =>
    intro hnd e he
    simp only [List.map_cons, dictLookup]
    rcases List.mem_cons.mp he with h | h
    · subst h
      rw [if_pos rfl]
    · have hne : rn e0 ≠ rn e := by
        intro hEq
        have : rn e0 ∉ l.map rn := (List.nodup_cons.mp hnd).1
        exact this (hEq ▸ List.mem_map_of_mem rn h)
      rw [if_neg hne]
      exact ih (List.nodup_cons.mp hnd).2 e h

/-- When no two entries map to the same renamed key, the remapped checkpoint is
exactly the entry-wise renaming, values untouched. -/
theorem remapCkpt_eq_map (ckpt : List (List Char × Tensor))
    (hnd : (ckpt.map (fun e => remapKey e.1 e.2.shape.length)).Nodup) :
    remapCkpt ckpt = ckpt.map (fun e => (remapKey e.1 e.2.shape.length, e.2)) := by
  have := remapCkpt_loop_eq (fun e => remapKey e.1 e.2.shape.length) ckpt [] (by simpa using hnd)
  simpa [remapCkpt] using this

/-- Rows of a log-softmax sum to `1` after exponentiation. -/
theorem sum_exp_logSoftmax {D : Nat} (hD : 0 < D) (x : Fin D → ℝ) :
    ∑ j, Real.exp (logSoftmax x j) = 1 := by
  have hne : (Finset.univ : Finset (Fin D)).Nonempty := ⟨⟨0, hD⟩, Finset.mem_univ _⟩
  have hS : 0 < ∑ k, Real.exp (x k) :=
    Finset.sum_pos (fun k _ => Real.exp_pos _) hne
  have : ∀ j : Fin D, Real.exp (logSoftmax x j) = Real.exp (x j) / (∑ k, Real.exp (x k)) := by
    intro j
    rw [logSoftmax, Real.exp_sub, Real.exp_log hS]
  rw [Finset.sum_congr rfl (fun j _ => this j), ← Finset.sum_div]
  exact div_self (ne_of_gt hS)

theorem dirStep_fired {fs : List String} {path : String}
    (h1 : (osPathSplit path).1 ≠ "") (h2 : (osPathSplit path).1 ∉ fs) :
    dirStep fs path = ((osPathSplit path).1 :: fs, [Event.makedirs (osPathSplit path).1]) := by
  unfold dirStep
  rw [if_pos ⟨h1, h2⟩]

theorem dirStep_cases (fs : List String) (path : String) :
    dirStep fs path = ((osPathSplit path).1 :: fs, [Event.makedirs (osPathSplit path).1]) ∨
    (dirStep fs path = (fs, []) ∧ ((osPathSplit path).1 = "" ∨ (osPathSplit path).1 ∈ fs)) := by
  by_cases h : (osPathSplit path).1 ≠ "" ∧ (osPathSplit path).1 ∉ fs
  · left; unfold dirStep; rw [if_pos h]
  · right
    constructor
    · unfold dirStep; rw [if_neg h]
    · by_cases he : (osPathSplit path).1 = ""
      · exact Or.inl he
      · right
        by_contra hmem
        exact h ⟨he, hmem⟩

theorem dirStep_subset (fs : List String) (path : String) : fs ⊆ (dirStep fs path).1 := by
  rcases dirStep_cases fs path with h | ⟨h, -⟩
  · rw [h]; exact fun x hx => List.mem_cons_of_mem _ hx
  · rw [h]; exact fun x hx => hx

theorem mem_dirStep_fs {fs : List String} {path : String}
    (h : (osPathSplit path).1 ≠ "") : (osPathSplit path).1 ∈ (dirStep fs path).1 := by
  rcases dirStep_cases fs path with hc | ⟨hc, hor⟩
  · rw [hc]; exact List.mem_cons_self _ _
  · rw [hc]
    rcases hor with h' | h'
    · exact absurd h' h
    · exact h'

theorem makedirs_mem_dirSteps (p1 : String) {fs0 : List String} {p2 : String}
    (h1 : (osPathSplit p2).1 ≠ "") (h2 : (osPathSplit p2).1 ∉ fs0) :
    Event.makedirs (osPathSplit p2).1 ∈ (dirStep fs0 p1).2 ++ (dirStep (dirStep fs0 p1).1 p2).2 := by
  by_cases hm : (osPathSplit p2).1 ∈ (dirStep fs0 p1).1
  · rcases dirStep_cases fs0 p1 with hc | ⟨hc, -⟩
    · rw [hc] at hm
      rcases List.mem_cons.mp hm with heq | hmem
      · rw [hc, heq]
        simp
      · exact absurd hmem h2
    · rw [hc] at hm
      exact absurd hm h2
  · rw [dirStep_fired h1 hm]
    simp

/-- Shape of a successful run: the decoder-construction events vary with the
decoder type, everything after them is fixed. -/
theorem mainRun_ok_shape (cfg : Config) (a : Args) (fs0 : List String)
    (encCkpt : List (List Char × Tensor))
    (hok : (mainRun cfg a fs0 encCkpt).2.2 = none) :
    ∃ dEv : List Event,
      mainRun cfg a fs0 encCkpt =
        ([Event.readConfig, Event.constructEncoder] ++ dEv ++
          ((if a.preV09Model then
              [Event.readCheckpoint a.nnEncoder, Event.loadRemappedState (remapCkpt encCkpt)]
            else [Event.readCheckpoint a.nnEncoder]) ++ [Event.readCheckpoint a.nnDecoder]) ++
          (dirStep fs0 a.onnxEncoder).2 ++
          (dirStep (dirStep fs0 a.onnxEncoder).1 a.onnxDecoder).2 ++
          [Event.exportModule a.onnxEncoder ⟨[a.batchSize, 64, a.timeSteps], 0⟩,
           Event.exportModule a.onnxDecoder ⟨[a.batchSize, cfg.decoderFeatIn, a.timeSteps / 2], 0⟩],
         (dirStep (dirStep fs0 a.onnxEncoder).1 a.onnxDecoder).1, none) := by
  by_cases h1 : a.decoderType = "ctc"
  · exact ⟨[Event.constructDecoder "ctc" cfg.decoderNumClasses], by simp [mainRun, h1]⟩
  · by_cases h2 : a.decoderType = "classification"
    · cases hl : cfg.labels with
      | none => exfalso; simp [mainRun, h1, h2, hl] at hok
      | some ls =>
        exact ⟨[Event.constructDecoder "classification" ls.length], by simp [mainRun, h1, h2, hl]⟩
    · exfalso; simp [mainRun, h1, h2] at hok

/-- C1 counterexample: the key `.conv.conv.weight` with a rank-3 tensor
contains `.conv.weight`, yet its remapped form `.mconv.conv.conv.weight` does
not contain `.mconv.conv.weight` — the two overlapping `.conv.` occurrences
defeat the rename, so the claim fails as stated. -/
theorem c1_counterexample :
    hasSub convWeightPat ".conv.conv.weight".data = true ∧
    remapKey ".conv.conv.weight".data 3 = ".mconv.conv.conv.weight".data ∧
    hasSub mconvConvWeightPat (remapKey ".conv.conv.weight".data 3) = false := by
  decide

/-- C1 (amended): for a checkpoint entry `(k, v)`: if `k` contains
`.conv.weight`, does not contain the overlapping pattern `.conv.conv.`, and
`v` has rank 3, the remapped key contains `.mconv.conv.weight`; if `k`
contains `.conv.` and `v` does not have rank 3, the remapped key is exactly
the `.conv.` → `.mconv.` replacement of `k` (no `.conv.weight` insertion step
is applied) and contains `.mconv.`. -/
theorem c1_remapKey (k : List Char) (rank : Nat) :
    (rank = 3 → hasSub convConvPat k = false → hasSub convWeightPat k = true →
      hasSub mconvConvWeightPat (remapKey k rank) = true) ∧
    (rank ≠ 3 → hasSub convPat k = true →
      remapKey k rank = pyReplace convPat mconvPat k ∧
      hasSub mconvPat (remapKey k rank) = true) := by
  constructor
  · intro h3 hcc hcw
    subst h3
    have hA := mconvWeight_after_conv_replace k.length k le_rfl hcc hcw
    have hB := mconvConvWeight_after_weight_replace
      (pyReplace convPat mconvPat k).length (pyReplace convPat mconvPat k) le_rfl hA
    simpa [remapKey] using hB
  · intro hr hc
    have h1 : remapKey k rank = pyReplace convPat mconvPat k := by
      simp [remapKey, hr]
    exact ⟨h1, by rw [h1]; exact hasSub_rep_pyReplace (by decide) mconvPat k hc⟩

/-- C1 witness: the amended statement evaluated on the rank-3 key
`encoder.layers.2.conv.weight` and the rank-1 key `encoder.layers.2.conv.bias`. -/
theorem c1_witness :
    hasSub mconvConvWeightPat (remapKey "encoder.layers.2.conv.weight".data 3) = true ∧
    (remapKey "encoder.layers.2.conv.bias".data 1 =
        pyReplace convPat mconvPat "encoder.layers.2.conv.bias".data ∧
      hasSub mconvPat (remapKey "encoder.layers.2.conv.bias".data 1) = true) :=
  ⟨(c1_remapKey "encoder.layers.2.conv.weight".data 3).1 rfl (by decide) (by decide),
   (c1_remapKey "encoder.layers.2.conv.bias".data 1).2 (by decide) (by decide)⟩

/-- C9 counterexample: in `.conv.conv.` the two `.conv.` occurrences overlap;
the greedy left-to-right replacement rewrites only the first one, so a
`.conv.` occurrence survives — the replacement does not apply to every
occurrence as claimed. -/
theorem c9_counterexample :
    remapKey ".conv.conv.".data 3 = ".mconv.conv.".data ∧
    hasSub convPat (remapKey ".conv.conv.".data 3) = true := by
  decide

/-- C9 (amended): for rank-3 entries the `.weight` → `.conv.weight`
replacement is applied unconditionally — in particular a key with no `.conv.`
segment is left unchanged by the first replacement and still receives the
`.conv.weight` insertion — and the `.conv.` → `.mconv.` replacement
eliminates every `.conv.` occurrence provided no two occurrences overlap
(i.e. the key has no `.conv.conv.`). -/
theorem c9_remapKey_unconditional (k : List Char) :
    remapKey k 3 = pyReplace weightPat convWeightPat (pyReplace convPat mconvPat k) ∧
    (hasSub convPat k = false → remapKey k 3 = pyReplace weightPat convWeightPat k) ∧
    (hasSub convPat k = false → hasSub weightPat k = true →
      hasSub convWeightPat (remapKey k 3) = true) ∧
    (hasSub convConvPat k = false →
      hasSub convPat (pyReplace convPat mconvPat k) = false) := by
  refine ⟨by simp [remapKey], ?_, ?_, ?_⟩
  · intro h
    simp [remapKey, pyReplace_of_not_hasSub h]
  · intro hc hw
    have h1 : remapKey k 3 = pyReplace weightPat convWeightPat k := by
      simp [remapKey, pyReplace_of_not_hasSub hc]
    rw [h1]
    exact hasSub_rep_pyReplace (by decide) convWeightPat k hw
  · intro hcc
    exact hasSub_conv_replace_eq_false k.length k le_rfl hcc

/-- C9 witness: the amended statement evaluated on `encoder.batchnorm.weight`
(no `.conv.` segment, rank 3) and `layer.conv.weight`. -/
theorem c9_witness :
    remapKey "encoder.batchnorm.weight".data 3 =
        pyReplace weightPat convWeightPat "encoder.batchnorm.weight".data ∧
    hasSub convWeightPat (remapKey "encoder.batchnorm.weight".data 3) = true ∧
    hasSub convPat (pyReplace convPat mconvPat "layer.conv.weight".data) = false :=
  ⟨(c9_remapKey_unconditional "encoder.batchnorm.weight".data).2.1 (by decide),
   (c9_remapKey_unconditional "encoder.batchnorm.weight".data).2.2.1 (by decide) (by decide),
   (c9_remapKey_unconditional "layer.conv.weight".data).2.2.2 (by decide)⟩

/-- C10 counterexample: `a.conv.weight` (rank 2) and `a.mconv.weight` (rank 2)
are both renamed to `a.mconv.weight`; the later entry overwrites the earlier
one, so the renamed key of the first entry is not mapped to its tensor. -/
theorem c10_counterexample :
    ("a.conv.weight".data, (⟨[4, 4], 1⟩ : Tensor)) ∈
      [("a.conv.weight".data, (⟨[4, 4], 1⟩ : Tensor)),
       ("a.mconv.weight".data, (⟨[4, 4], 2⟩ : Tensor))] ∧
    dictLookup
      (remapCkpt [("a.conv.weight".data, (⟨[4, 4], 1⟩ : Tensor)),
        ("a.mconv.weight".data, (⟨[4, 4], 2⟩ : Tensor))])
      (remapKey "a.conv.weight".data (⟨[4, 4], (1 : Int)⟩ : Tensor).shape.length) ≠
      some ⟨[4, 4], 1⟩ := by
  decide

/-- C10 (amended): when the renaming is injective on the checkpoint entries
(no two entries get the same renamed key), the remapped checkpoint maps each
renamed key to the identical tensor the original key mapped to; only keys
change.  (When renamed keys collide, the later entry overwrites the earlier.) -/
theorem c10_remapCkpt_preserves_values (ckpt : List (List Char × Tensor))
    (hinj : (ckpt.map (fun e => remapKey e.1 e.2.shape.length)).Nodup) :
    ∀ e ∈ ckpt, dictLookup (remapCkpt ckpt) (remapKey e.1 e.2.shape.length) = some e.2 := by
  rw [remapCkpt_eq_map ckpt hinj]
  exact dictLookup_map_eq _ ckpt hinj

/-- C10 witness: a two-entry checkpoint with distinct renamed keys. -/
theorem c10_witness :
    dictLookup
      (remapCkpt [("enc.conv.weight".data, (⟨[1, 2, 3], 7⟩ : Tensor)),
        ("enc.conv.bias".data, (⟨[5], 8⟩ : Tensor))])
      (remapKey "enc.conv.weight".data ((⟨[1, 2, 3], (7 : Int)⟩ : Tensor)).shape.length) =
      some ⟨[1, 2, 3], 7⟩ :=
  c10_remapCkpt_preserves_values
    [("enc.conv.weight".data, (⟨[1, 2, 3], 7⟩ : Tensor)),
     ("enc.conv.bias".data, (⟨[5], 8⟩ : Tensor))]
    (by decide) ("enc.conv.weight".data, (⟨[1, 2, 3], 7⟩ : Tensor)) (by decide)

/-- C2: if `decoder_type` is neither `ctc` nor `classification`, the run
raises `ValueError` and the trace contains no checkpoint read (neither a
`torch.load` nor a `restore_from`). -/
theorem c2_decoder_type_validation (cfg : Config) (a : Args) (fs0 : List String)
    (encCkpt : List (List Char × Tensor))
    (h1 : a.decoderType ≠ "ctc") (h2 : a.decoderType ≠ "classification") :
    (mainRun cfg a fs0 encCkpt).2.2 = some ErrKind.badDecoderType ∧
    ∀ p, Event.readCheckpoint p ∉ (mainRun cfg a fs0 encCkpt).1 := by
  constructor
  · simp [mainRun, h1, h2]
  · intro p
    simp [mainRun, h1, h2]

/-- C2 witness: a run with `decoder_type = beam`. -/
theorem c2_witness :
    (mainRun ⟨1024, 29, [], none⟩
      ⟨"cfg.yaml", "enc.pt", "dec.pt", "out/enc.onnx", "out/dec.onnx", false, 1, 256, "beam"⟩
      [] []).2.2 = some ErrKind.badDecoderType ∧
    ∀ p, Event.readCheckpoint p ∉
      (mainRun ⟨1024, 29, [], none⟩
        ⟨"cfg.yaml", "enc.pt", "dec.pt", "out/enc.onnx", "out/dec.onnx", false, 1, 256, "beam"⟩
        [] []).1 :=
  c2_decoder_type_validation _ _ _ _ (by decide) (by decide)

/-- C3 counterexample: with `decoder_type = classification` and no `labels`
key, the `ValueError` is raised, but the encoder — a model — has already been
constructed by then: the error is not raised before every model
construction. -/
theorem c3_counterexample :
    (mainRun ⟨1024, 29, [], none⟩
      ⟨"cfg.yaml", "enc.pt", "dec.pt", "out/enc.onnx", "out/dec.onnx", false, 1, 256,
        "classification"⟩ [] []).2.2 = some ErrKind.missingLabels ∧
    Event.constructEncoder ∈
      (mainRun ⟨1024, 29, [], none⟩
        ⟨"cfg.yaml", "enc.pt", "dec.pt", "out/enc.onnx", "out/dec.onnx", false, 1, 256,
          "classification"⟩ [] []).1 := by
  decide

/-- C3 (amended): with `decoder_type = classification` and no top-level
`labels` key, a `ValueError` is raised before the decoder model is
constructed (and before any checkpoint is read); the encoder has already been
constructed at that point. -/
theorem c3_missing_labels (cfg : Config) (a : Args) (fs0 : List String)
    (encCkpt : List (List Char × Tensor))
    (hdt : a.decoderType = "classification") (hlab : cfg.labels = none) :
    (mainRun cfg a fs0 encCkpt).2.2 = some ErrKind.missingLabels ∧
    (∀ kind n, Event.constructDecoder kind n ∉ (mainRun cfg a fs0 encCkpt).1) ∧
    (∀ p, Event.readCheckpoint p ∉ (mainRun cfg a fs0 encCkpt).1) := by
  refine ⟨?_, ?_, ?_⟩
  · simp [mainRun, hdt, hlab]
  · intro kind n
    simp [mainRun, hdt, hlab]
  · intro p
    simp [mainRun, hdt, hlab]

/-- C3 witness: a classification run whose config lacks `labels`. -/
theorem c3_witness :
    (mainRun ⟨1024, 30, [], none⟩
      ⟨"cfg.yaml", "enc.pt", "dec.pt", "o/enc.onnx", "o/dec.onnx", true, 1, 256,
        "classification"⟩ [] []).2.2 = some ErrKind.missingLabels ∧
    (∀ kind n, Event.constructDecoder kind n ∉
      (mainRun ⟨1024, 30, [], none⟩
        ⟨"cfg.yaml", "enc.pt", "dec.pt", "o/enc.onnx", "o/dec.onnx", true, 1, 256,
          "classification"⟩ [] []).1) ∧
    (∀ p, Event.readCheckpoint p ∉
      (mainRun ⟨1024, 30, [], none⟩
        ⟨"cfg.yaml", "enc.pt", "dec.pt", "o/enc.onnx", "o/dec.onnx", true, 1, 256,
          "classification"⟩ [] []).1) :=
  c3_missing_labels _ _ _ _ (by decide) (by decide)

/-- C6: in every run of `main` that reaches the export stage, the encoder is
exported with a zero dummy tensor of shape
`(batch_size, 64, time_steps)` — the encoder feature count is the constant
64 — and the decoder with a zero dummy tensor of shape
`(batch_size, feat_in, time_steps // 2)`: the decoder temporal dimension is
the floor half of the encoder one. -/
theorem c6_export_dummy_shapes (cfg : Config) (a : Args) (fs0 : List String)
    (encCkpt : List (List Char × Tensor))
    (hok : (mainRun cfg a fs0 encCkpt).2.2 = none) :
    Event.exportModule a.onnxEncoder ⟨[a.batchSize, 64, a.timeSteps], 0⟩ ∈
      (mainRun cfg a fs0 encCkpt).1 ∧
    Event.exportModule a.onnxDecoder ⟨[a.batchSize, cfg.decoderFeatIn, a.timeSteps / 2], 0⟩ ∈
      (mainRun cfg a fs0 encCkpt).1 := by
  obtain ⟨dEv, hsh⟩ := mainRun_ok_shape cfg a fs0 encCkpt hok
  rw [hsh]
  constructor <;> simp

/-- C6 witness: a successful ctc run with `batch_size = 1`, `time_steps = 256`
and `feat_in = 1024`. -/
theorem c6_witness :
    Event.exportModule "out/enc.onnx" ⟨[1, 64, 256], 0⟩ ∈
      (mainRun ⟨1024, 29, [], none⟩
        ⟨"cfg.yaml", "enc.pt", "dec.pt", "out/enc.onnx", "out/dec.onnx", false, 1, 256, "ctc"⟩
        [] []).1 ∧
    Event.exportModule "out/dec.onnx" ⟨[1, 1024, 128], 0⟩ ∈
      (mainRun ⟨1024, 29, [], none⟩
        ⟨"cfg.yaml", "enc.pt", "dec.pt", "out/enc.onnx", "out/dec.onnx", false, 1, 256, "ctc"⟩
        [] []).1 :=
  c6_export_dummy_shapes ⟨1024, 29, [], none⟩
    ⟨"cfg.yaml", "enc.pt", "dec.pt", "out/enc.onnx", "out/dec.onnx", false, 1, 256, "ctc"⟩
    [] [] (by decide)

theorem pair_sublist_append {α : Type} {x y : α} {A B : List α} (hx : x ∈ A) (hy : y ∈ B) :
    List.Sublist [x, y] (A ++ B) := by
  have h := List.Sublist.append (List.singleton_sublist.mpr hx) (List.singleton_sublist.mpr hy)
  simpa using h

/-- C7: in every run reaching the export stage, the parent directory of each
output path exists at export time: each nonempty parent is in the final
directory set (no directory is removed after creation, and exports are the
final events), and a parent that did not exist at entry is created by a
`makedirs` event ordered before the corresponding export event. -/
theorem c7_parent_dirs (cfg : Config) (a : Args) (fs0 : List String)
    (encCkpt : List (List Char × Tensor))
    (hok : (mainRun cfg a fs0 encCkpt).2.2 = none) :
    ((osPathSplit a.onnxEncoder).1 ≠ "" →
      (osPathSplit a.onnxEncoder).1 ∈ (mainRun cfg a fs0 encCkpt).2.1) ∧
    ((osPathSplit a.onnxDecoder).1 ≠ "" →
      (osPathSplit a.onnxDecoder).1 ∈ (mainRun cfg a fs0 encCkpt).2.1) ∧
    ((osPathSplit a.onnxEncoder).1 ≠ "" → (osPathSplit a.onnxEncoder).1 ∉ fs0 →
      ∃ t1 : Tensor, List.Sublist [Event.makedirs (osPathSplit a.onnxEncoder).1,
        Event.exportModule a.onnxEncoder t1] (mainRun cfg a fs0 encCkpt).1) ∧
    ((osPathSplit a.onnxDecoder).1 ≠ "" → (osPathSplit a.onnxDecoder).1 ∉ fs0 →
      ∃ t2 : Tensor, List.Sublist [Event.makedirs (osPathSplit a.onnxDecoder).1,
        Event.exportModule a.onnxDecoder t2] (mainRun cfg a fs0 encCkpt).1) := by
  obtain ⟨dEv, hsh⟩ := mainRun_ok_shape cfg a fs0 encCkpt hok
  rw [hsh]
  refine ⟨?_, ?_, ?_, ?_⟩
  · intro h
    exact dirStep_subset _ _ (mem_dirStep_fs h)
  · intro h
    exact mem_dirStep_fs h
  · intro h hn
    refine ⟨⟨[a.batchSize, 64, a.timeSteps], 0⟩, ?_⟩
    have hs1 : (dirStep fs0 a.onnxEncoder).2 =
        [Event.makedirs (osPathSplit a.onnxEncoder).1] := by
      rw [dirStep_fired h hn]
    exact pair_sublist_append (by simp [hs1]) (by simp)
  · intro h hn
    refine ⟨⟨[a.batchSize, cfg.decoderFeatIn, a.timeSteps / 2], 0⟩, ?_⟩
    have hmem := makedirs_mem_dirSteps a.onnxEncoder h hn
    rw [List.mem_append] at hmem
    exact pair_sublist_append (by simp [List.mem_append]; tauto) (by simp)

/-- C7 witness: a ctc run writing into the initially missing directories
`out` and `out2`. -/
theorem c7_witness :
    ((osPathSplit "out/enc.onnx").1 ≠ "" →
      (osPathSplit "out/enc.onnx").1 ∈
        (mainRun ⟨1024, 29, [], none⟩
          ⟨"cfg.yaml", "enc.pt", "dec.pt", "out/enc.onnx", "out2/dec.onnx", false, 1, 256, "ctc"⟩
          [] []).2.1) ∧
    ((osPathSplit "out2/dec.onnx").1 ≠ "" →
      (osPathSplit "out2/dec.onnx").1 ∈
        (mainRun ⟨1024, 29, [], none⟩
          ⟨"cfg.yaml", "enc.pt", "dec.pt", "out/enc.onnx", "out2/dec.onnx", false, 1, 256, "ctc"⟩
          [] []).2.1) ∧
    ((osPathSplit "out/enc.onnx").1 ≠ "" → (osPathSplit "out/enc.onnx").1 ∉ ([] : List String) →
      ∃ t1 : Tensor, List.Sublist [Event.makedirs (osPathSplit "out/enc.onnx").1,
        Event.exportModule "out/enc.onnx" t1]
        (mainRun ⟨1024, 29, [], none⟩
          ⟨"cfg.yaml", "enc.pt", "dec.pt", "out/enc.onnx", "out2/dec.onnx", false, 1, 256, "ctc"⟩
          [] []).1) ∧
    ((osPathSplit "out2/dec.onnx").1 ≠ "" → (osPathSplit "out2/dec.onnx").1 ∉ ([] : List String) →
      ∃ t2 : Tensor, List.Sublist [Event.makedirs (osPathSplit "out2/dec.onnx").1,
        Event.exportModule "out2/dec.onnx" t2]
        (mainRun ⟨1024, 29, [], none⟩
          ⟨"cfg.yaml", "enc.pt", "dec.pt", "out/enc.onnx", "out2/dec.onnx", false, 1, 256, "ctc"⟩
          [] []).1) :=
  c7_parent_dirs ⟨1024, 29, [], none⟩
    ⟨"cfg.yaml", "enc.pt", "dec.pt", "out/enc.onnx", "out2/dec.onnx", false, 1, 256, "ctc"⟩
    [] [] (by decide)

/-- C4: for every batch of `(N, 1, 32, 32)` inputs, `LeNet5.forward` returns a
`(N, 10)` tensor (enforced by the indexed types) and each row sums to 1 after
exponentiation — the log-softmax property; floating point is modelled by
exact reals. -/
theorem c4_lenet5_log_softmax {N : Nat} (m : LeNet5)
    (images : Fin N → Fin 1 → Fin 32 → Fin 32 → ℝ) (n : Fin N) :
    ∑ j : Fin 10, Real.exp (m.forward images n j) = 1 :=
  sum_exp_logSoftmax (by norm_num)
    (linear m.fc2w m.fc2b (relu1 (linear m.fc1w m.fc1b (flatten (relu3 (conv2d m.conv3w m.conv3b (maxPool2 (relu3 (conv2d m.conv2w m.conv2b (maxPool2 (relu3 (conv2d m.conv1w m.conv1b (images n)))))))))))))

theorem gatherTargets_length_mismatch :
    ∀ (ps : List (List ℝ)) (ts : List Nat), ps.length ≠ ts.length →
      gatherTargets ps ts = none := by
  intro ps
  induction ps with
  | nil =>
    intro ts h
    cases ts with
    | nil => exact absurd rfl h
    | cons t ts => rfl
  | cons p ps ih =>
    intro ts h
    cases ts with
    | nil => rfl
    | cons t ts =>
      have h' : ps.length ≠ ts.length := by simpa using h
      simp only [gatherTargets, ih ts h']
      cases p.get? t <;> rfl

theorem gatherTargets_some (D : Nat) :
    ∀ (ps : List (List ℝ)) (ts : List Nat), ts.length = ps.length →
      (∀ r ∈ ps, r.length = D) → (∀ pr ∈ ps.zip ts, pr.2 < D) →
      ∃ xs, gatherTargets ps ts = some xs ∧ xs.length = ps.length ∧
        ∀ x ∈ xs, ∃ r ∈ ps, x ∈ r := by
  intro ps
  induction ps with
  | nil =>
    intro ts hlen _ _
    have h0 : ts = [] := List.length_eq_zero.mp (by simpa using hlen)
    subst h0
    exact ⟨[], rfl, rfl, by simp⟩
  | cons p ps ih =>
    intro ts hlen hD hrange
    cases ts with
    | nil => simp at hlen
    | cons t ts =>
      have hlen' : ts.length = ps.length := by simpa using hlen
      have hD' : ∀ r ∈ ps, r.length = D := fun r hr => hD r (List.mem_cons_of_mem _ hr)
      have hrange' : ∀ pr ∈ ps.zip ts, pr.2 < D := fun pr hpr =>
        hrange pr (by rw [List.zip_cons_cons]; exact List.mem_cons_of_mem _ hpr)
      have ht : t < p.length := by
        have h1 := hrange (p, t) (by rw [List.zip_cons_cons]; exact List.mem_cons_self _ _)
        have h2 := hD p (List.mem_cons_self _ _)
        rw [h2]
        exact h1
      obtain ⟨xs, hxs, hxlen, hxmem⟩ := ih ts hlen' hD' hrange'
      obtain ⟨x, hx⟩ : ∃ x, p.get? t = some x := ⟨p.get ⟨t, ht⟩, List.get?_eq_get ht⟩
      refine ⟨x :: xs, ?_, ?_, ?_⟩
      · simp only [gatherTargets, hx, hxs]
      · simp [hxlen]
      · intro y hy
        rcases List.mem_cons.mp hy with h | h
        · exact ⟨p, List.mem_cons_self _ _, h ▸ List.get?_mem hx⟩
        · obtain ⟨r, hr, hyr⟩ := hxmem y h
          exact ⟨r, List.mem_cons_of_mem _ hr, hyr⟩

theorem list_sum_nonpos : ∀ l : List ℝ, (∀ x ∈ l, x ≤ 0) → l.sum ≤ 0 := by
  intro l
  induction l with
  | nil => intro _; simp
  | cons x l ih =>
    intro h
    rw [List.sum_cons]
    have h1 := h x (List.mem_cons_self _ _)
    have h2 := ih (fun y hy => h y (List.mem_cons_of_mem _ hy))
    linarith

/-- C5 counterexample: with a positive prediction entry the returned loss is
negative: the underlying criterion computes the mean of `-x[i, t[i]]` with no
sign restriction on its input, so the non-negativity claim fails for
arbitrary prediction tensors. -/
theorem c5_counterexample :
    lossFunction [("predictions", TValue.pred [[1]]), ("targets", TValue.targ [0])] =
      some (-1) ∧ ¬ ((0 : ℝ) ≤ -1) := by
  constructor
  · have hg : gatherTargets [[(1 : ℝ)]] [0] = some [1] := rfl
    have hlf : lossFunction [("predictions", TValue.pred [[(1 : ℝ)]]),
        ("targets", TValue.targ [0])] = nllLossCrit [[1]] [0] := rfl
    rw [hlf]
    simp only [nllLossCrit, hg]
    norm_num
  · norm_num

/-- C5 (amended): for predictions of shape `(B, D)` with `B ≥ 1` whose entries
are all ≤ 0 (log-probabilities) and integer targets of shape `(B)` with every
value in `[0, D)`, the loss function returns a non-negative scalar; for
mismatched batch sizes it fails. -/
theorem c5_nll_loss (preds : List (List ℝ)) (targets : List Nat) (D : Nat) :
    (targets.length = preds.length → preds ≠ [] → (∀ r ∈ preds, r.length = D) →
      (∀ pr ∈ preds.zip targets, pr.2 < D) → (∀ r ∈ preds, ∀ x ∈ r, x ≤ 0) →
      ∃ l, lossFunction [("predictions", TValue.pred preds),
          ("targets", TValue.targ targets)] = some l ∧ 0 ≤ l) ∧
    (preds.length ≠ targets.length →
      lossFunction [("predictions", TValue.pred preds),
        ("targets", TValue.targ targets)] = none) := by
  have hlf : lossFunction [("predictions", TValue.pred preds),
      ("targets", TValue.targ targets)] = nllLossCrit preds targets := rfl
  constructor
  · intro hlen hne hD hrange hnonpos
    obtain ⟨xs, hxs, hxlen, hxmem⟩ := gatherTargets_some D preds targets hlen hD hrange
    have hxs_ne : xs ≠ [] := by
      intro h
      apply hne
      apply List.length_eq_zero.mp
      rw [← hxlen, h]
      rfl
    cases xs with
    | nil => exact absurd rfl hxs_ne
    | cons x rest =>
      refine ⟨-(x :: rest).sum / ((x :: rest).length : ℝ), ?_, ?_⟩
      · rw [hlf]
        simp only [nllLossCrit, hxs]
      · apply div_nonneg
        · have hsum : (x :: rest).sum ≤ 0 := list_sum_nonpos (x :: rest) (fun y hy => by
            obtain ⟨r, hr, hyr⟩ := hxmem y hy
            exact hnonpos r hr y hyr)
          linarith
        · exact_mod_cast Nat.zero_le _
  · intro hlen
    rw [hlf]
    simp only [nllLossCrit, gatherTargets_length_mismatch preds targets hlen]

/-- C5 witness: a valid log-probability batch and a mismatched pair. -/
theorem c5_witness :
    (∃ l, lossFunction [("predictions", TValue.pred [[-1], [-2]]),
        ("targets", TValue.targ [0, 0])] = some l ∧ 0 ≤ l) ∧
    lossFunction [("predictions", TValue.pred [[-1]]),
      ("targets", TValue.targ [0, 1])] = none :=
  ⟨(c5_nll_loss [[-1], [-2]] [0, 0] 1).1 (by norm_num) (by simp) (by norm_num)
      (by norm_num [List.zip_cons_cons]) (by norm_num),
   (c5_nll_loss [[-1]] [0, 1] 1).2 (by norm_num)⟩

/-- C8: `_loss_function` forwards its keyword argument values positionally in
insertion order, ignoring argument names: with the predictions value first
(under any names, even misleading ones) the criterion is applied as
`criterion(predictions, targets)`; with the targets value first the criterion
receives the operands swapped and rejects them. -/
theorem c8_loss_function_order (n1 n2 : String) (p : List (List ℝ)) (t : List Nat) :
    lossFunction [(n1, TValue.pred p), (n2, TValue.targ t)] = nllLossCrit p t ∧
    lossFunction [(n2, TValue.targ t), (n1, TValue.pred p)] = none ∧
    lossFunction [("targets", TValue.pred p), ("predictions", TValue.targ t)] =
      nllLossCrit p t :=
  ⟨rfl, rfl, rfl⟩
